import Mathlib

/-!
Verification development for the crossword CSP solver in `src/generate.py`
(class `CrosswordCreator`).

Modelling conventions:
* Words are lists of characters, slots (the `Variable` objects of the puzzle
  model) are natural-number identifiers.
* The puzzle model (`crossword.py`, an external collaborator of the spec) is a
  structure supplying the slot list, slot lengths, the overlap relation and
  the word list; the neighbor set is derived from the overlap relation.
* Python dictionaries of domains are modelled as functions `Var → List Word`;
  the list order is a fixed concretization of Python's arbitrary-but-fixed
  set iteration order.
* `self.domains` is a *reference* to a mutable dict object.  To capture the
  reference semantics of `domains_copy = deepcopy(self.domains)` and
  `self.domains = domains_copy` in `backtrack_ac3`, the mutable store is
  modelled explicitly: a heap of dict objects plus the index the field
  `self.domains` currently points to.
* Recursive procedures take a fuel parameter; the result type
  `Option (Option Assignment)` distinguishes fuel exhaustion (`none`) from
  the program's own `None` result (`some none`).
* Python's stable `sorted` / `list.sort` is modelled by the stable
  `List.insertionSort` (stable sorts agree extensionally for a fixed input
  order).
-/

namespace CrosswordCSP

abbrev Word := List Char
abbrev Var := Nat
abbrev Domains := Var → List Word
abbrev Assignment := List (Var × Word)
abbrev Arc := Var × Var

/-- Modelled from the spec (§3, §6): the Puzzle Model collaborator
(`crossword.py`, not under `src/`) supplies the set of slots, each slot's
length, for every ordered pair of slots the overlap relation (`None` or the
pair of shared character indices), and the word list. -/
structure Puzzle where
  vars : List Var
  length : Var → Nat
  overlaps : Var → Var → Option (Nat × Nat)
  words : List Word

/-- Modelled from the spec (§3 Neighbor Set): the set of other slots with a
defined (non-`None`) overlap relation, as `crossword.neighbors` supplies it. -/
def neighbors (p : Puzzle) (x : Var) : List Var :=
  p.vars.filter (fun y => decide (y ≠ x) && (p.overlaps x y).isSome)

/-- The per-slot initial domains: `{var: self.crossword.words.copy() ...}`
(`CrosswordCreator.__init__`). -/
def initDomains (p : Puzzle) : Domains :=
  fun v => if v ∈ p.vars then p.words else []

/-- `enforce_node_consistency`: for each slot, drop the words whose length
differs from the slot's length. -/
def enforce_node_consistency (p : Puzzle) (d : Domains) : Domains :=
  p.vars.foldl
    (fun d v => Function.update d v ((d v).filter (fun w => w.length == p.length v))) d

/-- `overlap_satisfied`: true when the two values agree at the shared indices
(or the slots do not overlap at all).  This total version renders the
indexing `val_x[index_x] == val_y[index_y]` as `get?` equality; it agrees
with the source whenever both indices are in range (which holds on every
actually-returning run of the solver, where assigned and stored words have
their slot's length).  `overlap_satisfiedE` below models the out-of-range
`IndexError` explicitly. -/
def overlap_satisfied (p : Puzzle) (x y : Var) (vx vy : Word) : Bool :=
  match p.overlaps x y with
  | none => true
  | some (ix, iy) => decide (vx.get? ix = vy.get? iy)

/-- Exception-aware model of `overlap_satisfied`: `val_x[index_x]` or
`val_y[index_y]` raises `IndexError` when the index is out of range; the
raised exception is modelled as `none`, a normal return of `b` as `some b`. -/
def overlap_satisfiedE (p : Puzzle) (x y : Var) (vx vy : Word) : Option Bool :=
  match p.overlaps x y with
  | none => some true
  | some (ix, iy) =>
    match vx.get? ix, vy.get? iy with
    | some cx, some cy => some (decide (cx = cy))
    | _, _ => none

/-- The inner support test of `revise`: some `val_y` in y's domain is a
different word satisfying the overlap constraint. -/
def hasSupport (p : Puzzle) (d : Domains) (x y : Var) (vx : Word) : Bool :=
  (d y).any (fun vy => decide (vx ≠ vy) && overlap_satisfied p x y vx vy)

/-- `revise(x, y)`: remove from x's domain every word without support in y's
domain; return the new store together with the revision flag. -/
def revise (p : Puzzle) (d : Domains) (x y : Var) : Domains × Bool :=
  (Function.update d x ((d x).filter (fun vx => hasSupport p d x y vx)),
    (d x).any (fun vx => ! hasSupport p d x y vx))

/-- The initial full arc queue of `ac3` when no queue is supplied: every
ordered pair of distinct slots, in iteration order. -/
def seedArcs (p : Puzzle) : List Arc :=
  p.vars.flatMap (fun d1 => (p.vars.filter (fun d2 => d2 ≠ d1)).map (fun d2 => (d1, d2)))

/-- The `while arcs:` loop of `ac3`.  `arcs.pop()` pops from the end of the
Python list.  `none` is fuel exhaustion. -/
def ac3Go (p : Puzzle) : Nat → Domains → List Arc → Option (Domains × Bool)
  | 0, _, _ => none
  | fuel + 1, d, arcs =>
    match arcs.getLast? with
    | none => some (d, true)
    | some (x, y) =>
      let rest := arcs.dropLast
      let res := revise p d x y
      if res.2 then
        if (res.1 x).isEmpty then some (res.1, false)
        else ac3Go p fuel res.1
          (rest ++ ((neighbors p x).filter (fun z => z ≠ y)).map (fun z => (z, x)))
      else ac3Go p fuel res.1 rest

/-- `ac3(arcs=None)`: Python's `if not arcs:` treats both `None` and an empty
list as absent and seeds the queue with all ordered pairs of distinct slots. -/
def ac3 (p : Puzzle) (fuel : Nat) (d : Domains) (arcs : Option (List Arc)) :
    Option (Domains × Bool) :=
  match arcs with
  | none => ac3Go p fuel d (seedArcs p)
  | some l => if l.isEmpty then ac3Go p fuel d (seedArcs p) else ac3Go p fuel d l

/-- `assignment_complete`: every slot (dict key of `self.domains`) is assigned. -/
def assignment_complete (p : Puzzle) (a : Assignment) : Bool :=
  p.vars.all (fun v => (a.lookup v).isSome)

/-- The loop body of `consistent`: scan the assignment entries, tracking the
already `processed` words; a full-assignment lookup serves the neighbor
checks. -/
def consAux (p : Puzzle) (a : Assignment) : List (Var × Word) → List Word → Bool
  | [], _ => true
  | (x, wx) :: rest, pr =>
    if wx ∈ pr then false
    else if wx.length ≠ p.length x then false
    else if (neighbors p x).any (fun y =>
        match a.lookup y with
        | some wy => ! overlap_satisfied p x y wx wy
        | none => false) then false
    else consAux p a rest (wx :: pr)

/-- `consistent(assignment)`: no duplicate word, correct lengths, and all
overlap constraints between assigned neighbors hold. -/
def consistent (p : Puzzle) (a : Assignment) : Bool :=
  consAux p a a []

/-- Exception-aware neighbor scan of `consistent`: a raised `IndexError`
(`none`) propagates out of the loop; an unsatisfied overlap ends the whole
check with `some false`; otherwise the scan continues. -/
def consNbrE (p : Puzzle) (a : Assignment) (x : Var) (wx : Word) :
    List Var → Option Bool
  | [] => some true
  | y :: rest =>
    match a.lookup y with
    | none => consNbrE p a x wx rest
    | some wy =>
      match overlap_satisfiedE p x y wx wy with
      | none => none
      | some b => if b then consNbrE p a x wx rest else some false

/-- Exception-aware scan of `consistent` over the assignment entries, in
dict insertion order, tracking the `processed` words. -/
def consAuxE (p : Puzzle) (a : Assignment) :
    List (Var × Word) → List Word → Option Bool
  | [], _ => some true
  | (x, wx) :: rest, pr =>
    if wx ∈ pr then some false
    else if wx.length ≠ p.length x then some false
    else
      match consNbrE p a x wx (neighbors p x) with
      | none => none
      | some false => some false
      | some true => consAuxE p a rest (wx :: pr)

/-- `consistent(assignment)` with Python's partiality made explicit:
`some b` is a normal return of `b`; `none` is an `IndexError` escaping from
`overlap_satisfied` when an assigned word is shorter than a shared overlap
index. -/
def consistentE (p : Puzzle) (a : Assignment) : Option Bool :=
  consAuxE p a a []

/-- The rule-out count of `order_domain_values`: over all neighbors of `var`
and all their candidate words, count the pairs failing the overlap check. -/
def ruleOutCount (p : Puzzle) (d : Domains) (var : Var) (v : Word) : Nat :=
  ((neighbors p var).map
    (fun ov => ((d ov).filter (fun w => ! overlap_satisfied p var ov v w)).length)).sum

/-- `order_domain_values(var, assignment)`: the domain of `var` sorted stably,
ascending by rule-out count (the assignment argument is unused, as in the
source). -/
def order_domain_values (p : Puzzle) (d : Domains) (var : Var) (_a : Assignment) :
    List Word :=
  (d var).insertionSort (fun v w => ruleOutCount p d var v ≤ ruleOutCount p d var w)

/-- The sort key order of `select_unassigned_variable`: ascending domain size,
ties broken by descending neighbor count. -/
def selectOrder (p : Puzzle) (d : Domains) (x y : Var) : Prop :=
  (d x).length < (d y).length ∨
    ((d x).length = (d y).length ∧ (neighbors p y).length ≤ (neighbors p x).length)

instance (p : Puzzle) (d : Domains) : DecidableRel (selectOrder p d) := by
  intro x y; unfold selectOrder; infer_instance

/-- `select_unassigned_variable`: the first element of the unassigned slots
sorted by minimum remaining values, then highest degree. -/
def select_unassigned_variable (p : Puzzle) (d : Domains) (a : Assignment) : Var :=
  ((p.vars.filter (fun v => (a.lookup v).isNone)).insertionSort (selectOrder p d)).headD 0

/-- The mutable store: the heap of allocated domain-dict objects together with
the index `self.domains` currently references, plus the two global counters
`BACKTRACK_COUNTER` and `WORDS_TESTED`. -/
structure St where
  heap : List Domains
  cur : Nat
  btCount : Nat
  wtCount : Nat

/-- The dict object `self.domains` currently points to. -/
def domainsOf (st : St) : Domains :=
  st.heap.getD st.cur (fun _ => [])

/-- In-place mutation of the dict object `self.domains` points to. -/
def setCur (st : St) (dnew : Domains) : St :=
  { st with heap := st.heap.set st.cur dnew }

/-- `deepcopy(self.domains)`: allocate a fresh object holding the current
value; returns its address. -/
def snapshot (st : St) : Nat × St :=
  (st.heap.length, { st with heap := st.heap ++ [domainsOf st] })

/-- `self.domains = domains_copy`: repoint the reference, no copying. -/
def restoreTo (st : St) (addr : Nat) : St :=
  { st with cur := addr }

/-- Run `ac3` on the object `self.domains` points to, writing the mutated
domains back in place. -/
def liftAc3 (p : Puzzle) (fuel : Nat) (st : St) (arcs : Option (List Arc)) :
    Option (St × Bool) :=
  match ac3 p fuel (domainsOf st) arcs with
  | none => none
  | some (d1, b) => some (setCur st d1, b)

/-- The `for value in self.order_domain_values(...)` loop of `backtrack`:
tentatively assign, test `consistent`, recurse, undo on failure.  A returned
empty dict is falsy in Python (`if result:`), hence treated as failure. -/
def btGo (p : Puzzle) (recur : Assignment → St → Option (Option Assignment) × St)
    (var : Var) (a : Assignment) :
    List Word → St → Option (Option Assignment) × St
  | [], st => (some none, st)
  | v :: rest, st =>
    let a1 := (var, v) :: a
    let st1 := { st with wtCount := st.wtCount + 1 }
    if consistent p a1 then
      match recur a1 st1 with
      | (none, st2) => (none, st2)
      | (some (some r), st2) =>
        if r.isEmpty then btGo p recur var a rest st2 else (some (some r), st2)
      | (some none, st2) => btGo p recur var a rest st2
    else btGo p recur var a rest st1

/-- `backtrack(assignment)`: plain backtracking search.  The state carries the
global counters; the domain store is only read. -/
def backtrack : Nat → Puzzle → Assignment → St → Option (Option Assignment) × St
  | 0, _, _, st => (none, st)
  | fuel + 1, p, a, st =>
    let st := { st with btCount := st.btCount + 1 }
    if assignment_complete p a then (some (some a), st)
    else
      let var := select_unassigned_variable p (domainsOf st) a
      btGo p (backtrack fuel p) var a (order_domain_values p (domainsOf st) var a) st

/-- The candidate loop of `backtrack_ac3`: on a consistent tentative
assignment, collapse the slot's domain in place, run `ac3` seeded with the
arcs `(neighbor, variable)` (its boolean result is discarded), and recurse;
every non-returning iteration ends with `del assignment[variable]` and
`self.domains = domains_copy` (repointing at the snapshot object). -/
def btAc3Go (p : Puzzle) (fuel : Nat)
    (recur : Assignment → St → Option (Option Assignment) × St)
    (var : Var) (snap : Nat) (a : Assignment) :
    List Word → St → Option (Option Assignment) × St
  | [], st => (some none, st)
  | v :: rest, st =>
    let a1 := (var, v) :: a
    let st1 := { st with wtCount := st.wtCount + 1 }
    if consistent p a1 then
      let st2 := setCur st1 (Function.update (domainsOf st1) var [v])
      match liftAc3 p fuel st2 (some ((neighbors p var).map (fun z => (z, var)))) with
      | none => (none, st2)
      | some (st3, _) =>
        match recur a1 st3 with
        | (none, st4) => (none, st4)
        | (some (some r), st4) =>
          if r.isEmpty then btAc3Go p fuel recur var snap a rest (restoreTo st4 snap)
          else (some (some r), st4)
        | (some none, st4) => btAc3Go p fuel recur var snap a rest (restoreTo st4 snap)
    else btAc3Go p fuel recur var snap a rest (restoreTo st1 snap)

/-- `backtrack_ac3(assignment)`: interleaved backtracking; `domains_copy =
deepcopy(self.domains)` is taken once per call, before the candidate loop. -/
def backtrack_ac3 : Nat → Puzzle → Assignment → St → Option (Option Assignment) × St
  | 0, _, _, st => (none, st)
  | fuel + 1, p, a, st =>
    let st := { st with btCount := st.btCount + 1 }
    if assignment_complete p a then (some (some a), st)
    else
      let var := select_unassigned_variable p (domainsOf st) a
      let snapSt := snapshot st
      btAc3Go p fuel (backtrack_ac3 fuel p) var snapSt.1 a
        (order_domain_values p (domainsOf snapSt.2) var a) snapSt.2

/-- `solve(interleaving)`: node consistency, one full `ac3` (result ignored),
then the selected search variant from the empty assignment. -/
def solve (p : Puzzle) (fuel : Nat) (interleaving : Bool) (st : St) :
    Option (Option Assignment) × St :=
  let st := setCur st (enforce_node_consistency p (domainsOf st))
  match liftAc3 p fuel st none with
  | none => (none, st)
  | some (st, _) =>
    if interleaving then backtrack_ac3 fuel p [] st
    else backtrack fuel p [] st

/-- The store as `CrosswordCreator.__init__` builds it. -/
def initSt (p : Puzzle) : St :=
  { heap := [initDomains p], cur := 0, btCount := 0, wtCount := 0 }

/-- A whole run: construct the creator, then `solve`. -/
def solveRun (p : Puzzle) (interleaving : Bool) (fuel : Nat) :
    Option (Option Assignment) × St :=
  solve p fuel interleaving (initSt p)

/-! ### Predicates used to state the claims -/

/-- Arc-consistency of the ordered pair `(x, y)`: every remaining value of x
has a distinct supporting value in y's domain. -/
def arcSupported (p : Puzzle) (d : Domains) (x y : Var) : Prop :=
  ∀ vx ∈ d x, ∃ vy ∈ d y, vx ≠ vy ∧ overlap_satisfied p x y vx vy = true

/-- Geometric well-formedness of the puzzle model (spec §3: the overlap
relation of an unordered pair is stored once per direction, with the index
pair swapped). -/
def OverlapSymm (p : Puzzle) : Prop :=
  ∀ x y i j, p.overlaps x y = some (i, j) → p.overlaps y x = some (j, i)

/-- A slot does not overlap itself. -/
def OverlapIrrefl (p : Puzzle) : Prop :=
  ∀ x, p.overlaps x x = none

/-- Spec-side inconsistency predicate of §4.4, written from the spec's words
for claim C8: (a) two assigned slots hold the identical word, (b) an
assigned word's length differs from its slot's length, (c) two assigned
overlapping slots disagree at their shared character indices. -/
def specInconsistent (p : Puzzle) (a : Assignment) : Prop :=
  (∃ e ∈ a, ∃ f ∈ a, e.1 ≠ f.1 ∧ e.2 = f.2) ∨
  (∃ e ∈ a, e.2.length ≠ p.length e.1) ∨
  (∃ e ∈ a, ∃ f ∈ a, ∃ ix iy, p.overlaps e.1 f.1 = some (ix, iy) ∧
    e.2.get? ix ≠ f.2.get? iy)

/-- Every domain object on the heap only holds words of the word list. -/
def HeapWords (p : Puzzle) (st : St) : Prop :=
  ∀ dm ∈ st.heap, ∀ v, ∀ w ∈ dm v, w ∈ p.words

/-- Candidate words of an assignment. -/
def AssignWords (p : Puzzle) (a : Assignment) : Prop :=
  ∀ e ∈ a, e.2 ∈ p.words

/-- Loop invariant of AC-3: every neighboring ordered pair not awaiting
revision in the queue is already arc-consistent. -/
def AC3Inv (p : Puzzle) (d : Domains) (arcs : List Arc) : Prop :=
  ∀ x y, x ∈ p.vars → y ∈ p.vars → x ≠ y → (p.overlaps x y).isSome →
    (x, y) ∉ arcs → arcSupported p d x y

/-- Queue well-formedness: no arc relates a slot to itself. -/
def QueueWF (arcs : List Arc) : Prop :=
  ∀ pr ∈ arcs, pr.1 ≠ pr.2

/-- Queue well-formedness: every arc's source is a puzzle slot. -/
def QueueVars (p : Puzzle) (arcs : List Arc) : Prop :=
  ∀ pr ∈ arcs, pr.1 ∈ p.vars

/-- Total number of candidate words over all slots. -/
def totalSize (p : Puzzle) (d : Domains) : Nat :=
  (p.vars.map (fun v => (d v).length)).sum

/-- A fuel bound under which `ac3Go` always terminates: queue length plus a
potential paid for every re-enqueueing revision. -/
def ac3Fuel (p : Puzzle) (d : Domains) (arcs : List Arc) : Nat :=
  arcs.length + (p.vars.length + 1) * totalSize p d + 1

/-- The domain store produced by an `ac3` call (projection used to state
claims about successful runs). -/
def ac3Dom (p : Puzzle) (fuel : Nat) (d : Domains) (arcs : Option (List Arc)) :
    Domains :=
  ((ac3 p fuel d arcs).getD (d, false)).1

/-! ### Concrete instances used for counterexamples and witnesses -/

/-- Word literal helper. -/
def cw (s : String) : Word := s.toList

/-- Two length-3 slots crossing at their middle letters, word list
`{cat, dog}` (the spec's own mismatch example from §8). -/
def p2 : Puzzle :=
  { vars := [0, 1]
    length := fun _ => 3
    overlaps := fun x y =>
      if (x = 0 ∧ y = 1) ∨ (x = 1 ∧ y = 0) then some (1, 1) else none
    words := [cw "cat", cw "dog"] }

/-- Three mutually crossing slots: slot 0 of length 2, slot 1 of length 3,
slot 2 of length 4; 0–1 overlap at (1,0), 1–2 at (2,0), 0–2 at (0,1).  Every
domain value is pairwise supported, `(fc, cci, ifxx)` is the unique solution,
and the branches `da` and `eb` both fail only at the third slot. -/
def p3 : Puzzle :=
  { vars := [0, 1, 2]
    length := fun v => if v = 0 then 2 else if v = 1 then 3 else 4
    overlaps := fun x y =>
      if x = 0 ∧ y = 1 then some (1, 0) else if x = 1 ∧ y = 0 then some (0, 1)
      else if x = 1 ∧ y = 2 then some (2, 0) else if x = 2 ∧ y = 1 then some (0, 2)
      else if x = 0 ∧ y = 2 then some (0, 1) else if x = 2 ∧ y = 0 then some (1, 0)
      else none
    words := [cw "da", cw "eb", cw "fc", cw "aag", cw "bbh", cw "cci",
              cw "gexx", cw "hdxx", cw "ifxx"] }

/-- The solution of `p3` the plain search finds. -/
def sol3 : Assignment := [(2, cw "ifxx"), (1, cw "cci"), (0, cw "fc")]

/-- Two non-overlapping slots with the single shared word `aa`. -/
def pC6 : Puzzle :=
  { vars := [0, 1], length := fun _ => 2, overlaps := fun _ _ => none,
    words := [cw "aa"] }

/-- Domains for the amended C6 statement: slot 1 offers a word different from
every candidate of slot 0. -/
def dC6w : Domains :=
  fun v => if v = 0 then [cw "aa"] else if v = 1 then [cw "aa", cw "bb"] else []

/-- Domains on `p2` that are already narrowed to the mismatching pair. -/
def dC7 : Domains :=
  fun v => if v = 0 then [cw "cat"] else if v = 1 then [cw "dog"] else []

/-- A single slot of length 3 with the single word `ab`, which can never fit:
node consistency empties its domain. -/
def pW9 : Puzzle :=
  { vars := [0], length := fun _ => 3, overlaps := fun _ _ => none,
    words := [cw "ab"] }

/-! ### Theorems -/

set_option maxRecDepth 40000

/-- C2, counterexample: on puzzle `p3` the plain variant (through `solve`)
returns a complete solution while the interleaved variant (through `solve`)
returns the no-solution signal, so the two variants do not agree on
solvability.  The cause is the snapshot-aliasing slip in `backtrack_ac3`:
after the first restore, `self.domains` aliases `domains_copy`, so later
candidates mutate the snapshot itself and their prunings survive restore. -/
theorem solve_variants_disagree :
    (solveRun p3 false 50).1 = some (some sol3) ∧
    (solveRun p3 true 50).1 = some none := by
  decide

/-- C3, counterexample: running `backtrack_ac3` on `p2` from the empty
assignment exhausts all candidates (returns `None`), yet the domain store it
leaves behind is not the entry store: slot 0 keeps only `dog` and slot 1 is
empty, because the second candidate's collapse and AC-3 pruning mutated the
snapshot object that the final restore points back to. -/
theorem backtrack_ac3_restore_bug :
    (backtrack_ac3 20 p2 [] (initSt p2)).1 = some none ∧
    domainsOf ((backtrack_ac3 20 p2 [] (initSt p2)).2) 0 ≠ domainsOf (initSt p2) 0 ∧
    domainsOf ((backtrack_ac3 20 p2 [] (initSt p2)).2) 1 ≠ domainsOf (initSt p2) 1 := by
  decide

/-- C4, counterexample: on `p2` from the empty assignment, the seeded AC-3
run of each of the two candidates (`cat`, then `dog`, each collapsing slot
0's domain) reports failure, yet `backtrack_ac3` is entered three times:
the root call plus one recursive call per candidate.  The code never
inspects the boolean `ac3` returns. -/
theorem backtrack_ac3_recurses_after_ac3_failure :
    (ac3 p2 20 (Function.update (initDomains p2) 0 [cw "cat"])
        (some [(1, 0)])).map Prod.snd = some false ∧
    (ac3 p2 20 (Function.update (initDomains p2) 0 [cw "dog"])
        (some [(1, 0)])).map Prod.snd = some false ∧
    ((backtrack_ac3 20 p2 [] (initSt p2)).2).btCount = 3 := by
  decide

/-- C6, counterexample: for the non-overlapping pair of slots of `pC6`, whose
domains both hold only the word `aa`, `revise(0, 1)` removes `aa` from slot
0's domain and returns true, because the support witness must also be a
*different* word. -/
theorem revise_no_overlap_can_remove :
    (revise pC6 (initDomains pC6) 0 1).2 = true ∧
    (revise pC6 (initDomains pC6) 0 1).1 0 = [] ∧
    initDomains pC6 0 ≠ [] := by
  decide

/-- C6, amended: if x and y have no overlap and y's domain offers, for every
candidate of x, at least one different word, then `revise(x, y)` removes no
candidate from x's domain and returns false. -/
theorem revise_no_overlap (p : Puzzle) (d : Domains) (x y : Var)
    (hno : p.overlaps x y = none)
    (hsupp : ∀ vx ∈ d x, ∃ vy ∈ d y, vy ≠ vx) :
    revise p d x y = (d, false) := by
  have hs : ∀ vx ∈ d x, hasSupport p d x y vx = true := by
    intro vx hvx
    obtain ⟨vy, hvy, hne⟩ := hsupp vx hvx
    have hov : overlap_satisfied p x y vx vy = true := by
      unfold overlap_satisfied
      rw [hno]
    unfold hasSupport
    rw [List.any_eq_true]
    exact ⟨vy, hvy, by simp [hov, Ne.symm hne]⟩
  unfold revise
  have h1 : (d x).filter (fun vx => hasSupport p d x y vx) = d x :=
    List.filter_eq_self.mpr hs
  have h2 : (d x).any (fun vx => ! hasSupport p d x y vx) = false := by
    rw [List.any_eq_false]
    intro vx hvx
    simp [hs vx hvx]
  rw [h1, h2, Function.update_eq_self]

/-- Witness for the amended C6 at a concrete non-overlapping instance. -/
theorem revise_no_overlap_witness : revise pC6 dC6w 0 1 = (dC6w, false) :=
  revise_no_overlap pC6 dC6w 0 1 (by decide) (by decide)

/-- C7, counterexample: `ac3` invoked with an explicitly supplied *empty*
queue on the narrowed domains `dC7` of `p2` does not return success leaving
the domains unchanged; it reseeds with all pairs, empties slot 1's domain
and reports failure. -/
theorem ac3_empty_queue_reseeds :
    (ac3 p2 20 dC7 (some [])).map Prod.snd = some false ∧
    ((ac3 p2 20 dC7 (some [])).getD (dC7, true)).1 1 = [] ∧
    dC7 1 ≠ [] := by
  decide

/-- C7, amended: an explicitly supplied empty queue is treated exactly like
an absent queue (Python's `if not arcs:`), reseeding with every ordered pair
of distinct slots; a supplied non-empty queue is processed as given (plus
the arcs re-enqueued after revisions), with no reseeding. -/
theorem ac3_queue_dispatch (p : Puzzle) (fuel : Nat) (d : Domains) :
    ac3 p fuel d (some []) = ac3 p fuel d none ∧
    ∀ q : List Arc, q ≠ [] → ac3 p fuel d (some q) = ac3Go p fuel d q := by
  constructor
  · rfl
  · intro q hq
    cases q with
    | nil => exact absurd rfl hq
    | cons a l => rfl

/-- Witness for the amended C7 at concrete queues. -/
theorem ac3_queue_dispatch_witness :
    ac3 p2 5 dC7 (some []) = ac3 p2 5 dC7 none ∧
    ac3 p2 5 dC7 (some [(1, 0)]) = ac3Go p2 5 dC7 [(1, 0)] :=
  ⟨(ac3_queue_dispatch p2 5 dC7).1,
    (ac3_queue_dispatch p2 5 dC7).2 [(1, 0)] (by decide)⟩

/-! ### Frame property of the plain search (C10) -/

theorem btGo_frame (p : Puzzle)
    (recur : Assignment → St → Option (Option Assignment) × St)
    (h : ∀ a st, ((recur a st).2).heap = st.heap ∧ ((recur a st).2).cur = st.cur)
    (var : Var) (vals : List Word) :
    ∀ (a : Assignment) (st : St),
      ((btGo p recur var a vals st).2).heap = st.heap ∧
      ((btGo p recur var a vals st).2).cur = st.cur := by
  induction vals with
  | nil => intro a st; exact ⟨rfl, rfl⟩
  | cons v rest ih =>
    intro a st
    simp only [btGo]
    split
    · rcases hr : recur ((var, v) :: a) { st with wtCount := st.wtCount + 1 }
        with ⟨res, st2⟩
      have h2 := h ((var, v) :: a) { st with wtCount := st.wtCount + 1 }
      rw [hr] at h2
      match res with
      | none => simpa [hr] using h2
      | some none =>
        simp only [hr]
        exact ⟨(ih a st2).1.trans h2.1, (ih a st2).2.trans h2.2⟩
      | some (some r) =>
        simp only [hr]
        split
        · exact ⟨(ih a st2).1.trans h2.1, (ih a st2).2.trans h2.2⟩
        · exact h2
    · exact ih a { st with wtCount := st.wtCount + 1 }

theorem backtrack_frame :
    ∀ (fuel : Nat) (p : Puzzle) (a : Assignment) (st : St),
      ((backtrack fuel p a st).2).heap = st.heap ∧
      ((backtrack fuel p a st).2).cur = st.cur := by
  intro fuel
  induction fuel with
  | zero => intro p a st; exact ⟨rfl, rfl⟩
  | succ fuel ih =>
    intro p a st
    simp only [backtrack]
    split
    · exact ⟨rfl, rfl⟩
    · exact btGo_frame p (backtrack fuel p) (fun a st => ih p a st) _ _ _ _

/-- C10: the plain `backtrack` (whose helpers `consistent`,
`select_unassigned_variable`, `order_domain_values`, `assignment_complete`
only read the store) leaves every slot's domain in the domain store exactly
as it was, for every assignment argument, every store state and every
outcome; only the global counters change. -/
theorem backtrack_preserves_domains (fuel : Nat) (p : Puzzle) (a : Assignment)
    (st : St) :
    (∀ v, domainsOf ((backtrack fuel p a st).2) v = domainsOf st v) ∧
    ((backtrack fuel p a st).2).heap = st.heap ∧
    ((backtrack fuel p a st).2).cur = st.cur := by
  obtain ⟨h1, h2⟩ := backtrack_frame fuel p a st
  refine ⟨fun v => ?_, h1, h2⟩
  unfold domainsOf
  rw [h1, h2]

/-! ### The selection heuristic picks an empty-domain slot when one exists -/

theorem selectOrder_total (p : Puzzle) (d : Domains) (x y : Var) :
    selectOrder p d x y ∨ selectOrder p d y x := by
  unfold selectOrder
  rcases Nat.lt_trichotomy (d x).length (d y).length with h | h | h
  · exact Or.inl (Or.inl h)
  · rcases Nat.le_total (neighbors p y).length (neighbors p x).length with h2 | h2
    · exact Or.inl (Or.inr ⟨h, h2⟩)
    · exact Or.inr (Or.inr ⟨h.symm, h2⟩)
  · exact Or.inr (Or.inl h)

theorem selectOrder_trans (p : Puzzle) (d : Domains) (x y z : Var)
    (h1 : selectOrder p d x y) (h2 : selectOrder p d y z) : selectOrder p d x z := by
  unfold selectOrder at *
  rcases h1 with h1 | ⟨h1e, h1n⟩
  · rcases h2 with h2 | ⟨h2e, _⟩
    · exact Or.inl (h1.trans h2)
    · exact Or.inl (h2e ▸ h1)
  · rcases h2 with h2 | ⟨h2e, h2n⟩
    · exact Or.inl (h1e ▸ h2)
    · exact Or.inr ⟨h1e.trans h2e, h2n.trans h1n⟩

/-- The selected slot has minimal domain size; in particular, when some
unassigned slot's domain is empty, the selected slot's domain is empty. -/
theorem select_domain_empty (p : Puzzle) (d : Domains) (a : Assignment) (v0 : Var)
    (hv : v0 ∈ p.vars) (hun : a.lookup v0 = none) (hd : d v0 = []) :
    d (select_unassigned_variable p d a) = [] := by
  haveI : IsTotal Var (selectOrder p d) := ⟨selectOrder_total p d⟩
  haveI : IsTrans Var (selectOrder p d) := ⟨selectOrder_trans p d⟩
  have hmem : v0 ∈ p.vars.filter (fun v => (a.lookup v).isNone) := by
    rw [List.mem_filter]
    exact ⟨hv, by rw [hun]; rfl⟩
  have hmem2 : v0 ∈ (p.vars.filter (fun v => (a.lookup v).isNone)).insertionSort
      (selectOrder p d) := (List.mem_insertionSort _).mpr hmem
  have hsorted := List.sorted_insertionSort (selectOrder p d)
    (p.vars.filter (fun v => (a.lookup v).isNone))
  unfold select_unassigned_variable
  rcases hc : (p.vars.filter (fun v => (a.lookup v).isNone)).insertionSort
      (selectOrder p d) with _ | ⟨h0, t⟩
  · rw [hc] at hmem2; cases hmem2
  · rw [hc] at hmem2 hsorted
    simp only [List.headD_cons]
    rcases List.mem_cons.mp hmem2 with he | ht
    · rw [← he]; exact hd
    · have hrel := List.rel_of_sorted_cons hsorted v0 ht
      rcases hrel with hlt | ⟨heq, _⟩
      · rw [hd] at hlt; cases Nat.not_lt_zero _ hlt
      · rw [hd] at heq
        exact List.eq_nil_of_length_eq_zero heq

theorem order_domain_values_empty (p : Puzzle) (d : Domains) (var : Var)
    (a : Assignment) (h : d var = []) : order_domain_values p d var a = [] := by
  unfold order_domain_values
  rw [h]
  rfl

/-! ### The store view is stable under snapshotting and counter bumps -/

theorem domainsOf_snapshot (st : St) : domainsOf (snapshot st).2 = domainsOf st := by
  unfold snapshot domainsOf
  rcases Nat.lt_or_ge st.cur st.heap.length with h | h
  · simp only
    rw [List.getD_append _ _ _ _ h]
  · rcases Nat.eq_or_lt_of_le h with he | hlt
    · simp only
      rw [List.getD_eq_default _ _ h.le] at *
      rw [List.getD_append_right _ _ _ _ h, ← he]
      simp [List.getD, List.getD_eq_default _ _ h.le]
    · simp only
      rw [List.getD_eq_default _ _ h, List.getD_eq_default]
      simp only [List.length_append, List.length_cons, List.length_nil]
      omega

theorem assignment_complete_false (p : Puzzle) (a : Assignment) (v0 : Var)
    (hv : v0 ∈ p.vars) (hun : a.lookup v0 = none) :
    assignment_complete p a = false := by
  unfold assignment_complete
  rw [List.all_eq_false]
  exact ⟨v0, hv, by rw [hun]; simp⟩

/-- Helper: when some unassigned slot has an empty domain, `backtrack_ac3`
selects it and fails at once (no candidate loop iterations). -/
theorem btAc3_empty_unassigned (fuel : Nat) (p : Puzzle) (a : Assignment) (st : St)
    (v0 : Var) (hv : v0 ∈ p.vars) (hun : a.lookup v0 = none)
    (hd : domainsOf st v0 = []) :
    (backtrack_ac3 (fuel + 1) p a st).1 = some none := by
  simp only [backtrack_ac3]
  rw [if_neg (by simp [assignment_complete_false p a v0 hv hun])]
  have hsel : domainsOf { st with btCount := st.btCount + 1 }
      (select_unassigned_variable p (domainsOf { st with btCount := st.btCount + 1 }) a)
      = [] :=
    select_domain_empty p _ a v0 hv hun hd
  rw [order_domain_values_empty _ _ _ _ (by rw [domainsOf_snapshot]; exact hsel)]
  rfl

/-- Helper: the same immediate failure for the plain `backtrack`. -/
theorem bt_empty_unassigned (fuel : Nat) (p : Puzzle) (a : Assignment) (st : St)
    (v0 : Var) (hv : v0 ∈ p.vars) (hun : a.lookup v0 = none)
    (hd : domainsOf st v0 = []) :
    (backtrack (fuel + 1) p a st).1 = some none := by
  simp only [backtrack]
  rw [if_neg (by simp [assignment_complete_false p a v0 hv hun])]
  rw [order_domain_values_empty _ _ _ _
    (select_domain_empty p (domainsOf { st with btCount := st.btCount + 1 }) a v0 hv hun hd)]
  rfl

/-- C4, amended: after a consistent tentative assignment, `backtrack_ac3`
always makes the recursive call — the boolean result of the seeded AC-3 run
is never inspected (see the counterexample).  The failure behavior the claim
describes still arrives one level later: whenever the domain store holds an
empty domain for some unassigned slot (as after a failed AC-3 run that
emptied an unassigned slot's domain), the recursive call returns `None`
immediately, so the branch fails. -/
theorem backtrack_ac3_fails_on_empty_domain (fuel : Nat) (p : Puzzle)
    (a : Assignment) (st : St) (v0 : Var) (hv : v0 ∈ p.vars)
    (hun : a.lookup v0 = none) (hd : domainsOf st v0 = []) :
    (backtrack_ac3 (fuel + 1) p a st).1 = some none :=
  btAc3_empty_unassigned fuel p a st v0 hv hun hd

/-- Witness for the amended C4: slot 1 of `p2` is unassigned with an empty
domain, and the call fails at once. -/
theorem backtrack_ac3_fails_on_empty_domain_witness :
    (backtrack_ac3 4 p2 [(0, cw "cat")]
      { heap := [fun v => if v = 0 then [cw "cat"] else []], cur := 0,
        btCount := 0, wtCount := 0 }).1 = some none :=
  backtrack_ac3_fails_on_empty_domain 3 p2 [(0, cw "cat")]
    { heap := [fun v => if v = 0 then [cw "cat"] else []], cur := 0,
      btCount := 0, wtCount := 0 } 1 (by decide) (by decide) (by decide)

/-! ### The full-assignment consistency check (C8) -/

theorem lookup_mem :
    ∀ {l : Assignment} {k : Var} {v : Word}, l.lookup k = some v → (k, v) ∈ l := by
  intro l
  induction l with
  | nil => intro k v h; cases h
  | cons e t ih =>
    intro k v h
    obtain ⟨ek, ev⟩ := e
    rw [List.lookup_cons] at h
    by_cases hk : k = ek
    · subst hk
      simp only [beq_self_eq_true, if_pos] at h
      cases h
      exact List.mem_cons_self _ _
    · simp only [beq_false_of_ne hk] at h
      exact List.mem_cons_of_mem _ (ih h)

theorem mem_lookup :
    ∀ {l : Assignment} {k : Var} {v : Word}, (l.map Prod.fst).Nodup →
      (k, v) ∈ l → l.lookup k = some v := by
  intro l
  induction l with
  | nil => intro k v _ h; cases h
  | cons e t ih =>
    intro k v hnd h
    obtain ⟨ek, ev⟩ := e
    rw [List.map_cons, List.nodup_cons] at hnd
    rw [List.lookup_cons]
    rcases List.mem_cons.mp h with he | ht
    · cases he
      simp
    · have hk : k ≠ ek := by
        intro hkk
        exact hnd.1 (hkk ▸ List.mem_map.mpr ⟨(k, v), ht, rfl⟩)
      simp only [beq_false_of_ne hk]
      exact ih hnd.2 ht

theorem consAux_true_iff (p : Puzzle) (a : Assignment) :
    ∀ (l : List (Var × Word)) (pr : List Word),
      consAux p a l pr = true ↔
        (List.Pairwise (fun e f => e.2 ≠ f.2) l ∧
         ∀ e ∈ l, e.2 ∉ pr ∧ e.2.length = p.length e.1 ∧
           ∀ y ∈ neighbors p e.1, ∀ wy, a.lookup y = some wy →
             overlap_satisfied p e.1 y e.2 wy = true) := by
  intro l
  induction l with
  | nil => intro pr; simp [consAux]
  | cons e rest ih =>
    intro pr
    obtain ⟨x, wx⟩ := e
    simp only [consAux]
    split_ifs with hA hB hC
    · simp only [Bool.false_eq_true, false_iff]
      rintro ⟨-, hall⟩
      exact (hall (x, wx) (List.mem_cons_self _ _)).1 hA
    · simp only [Bool.false_eq_true, false_iff]
      rintro ⟨-, hall⟩
      exact hB (hall (x, wx) (List.mem_cons_self _ _)).2.1
    · simp only [Bool.false_eq_true, false_iff]
      rintro ⟨-, hall⟩
      obtain ⟨y, hy, hmatch⟩ := List.any_eq_true.mp hC
      cases hl : a.lookup y with
      | none => rw [hl] at hmatch; cases hmatch
      | some wy =>
        have hsat := (hall (x, wx) (List.mem_cons_self _ _)).2.2 y hy wy hl
        rw [hl] at hmatch
        simp only [Bool.not_eq_true'] at hmatch
        rw [hsat] at hmatch
        cases hmatch
    · rw [ih (wx :: pr)]
      constructor
      · rintro ⟨hpw, hall⟩
        refine ⟨List.Pairwise.cons ?_ hpw, ?_⟩
        · intro f hf hvv
          exact (hall f hf).1 (by rw [← hvv]; exact List.mem_cons_self _ _)
        · intro f hf
          rcases List.mem_cons.mp hf with he | ht
          · subst he
            refine ⟨hA, not_not.mp hB, ?_⟩
            intro y hy wy hl
            have hmat := List.any_eq_false.mp (Bool.not_eq_true _ ▸ hC) y hy
            rw [hl] at hmat
            simpa using hmat
          · obtain ⟨h1, h2, h3⟩ := hall f ht
            exact ⟨fun hm => h1 (List.mem_cons_of_mem _ hm), h2, h3⟩
      · rintro ⟨hpw, hall⟩
        refine ⟨hpw.of_cons, ?_⟩
        intro f hf
        obtain ⟨h1, h2, h3⟩ := hall f (List.mem_cons_of_mem _ hf)
        refine ⟨?_, h2, h3⟩
        intro hm
        rcases List.mem_cons.mp hm with he | ht
        · exact (List.rel_of_pairwise_cons hpw hf) he.symm
        · exact h1 ht

theorem consistent_true_iff (p : Puzzle) (a : Assignment) :
    consistent p a = true ↔
      (List.Pairwise (fun e f => e.2 ≠ f.2) a ∧
       ∀ e ∈ a, e.2.length = p.length e.1 ∧
         ∀ y ∈ neighbors p e.1, ∀ wy, a.lookup y = some wy →
           overlap_satisfied p e.1 y e.2 wy = true) := by
  rw [consistent, consAux_true_iff]
  constructor
  · rintro ⟨h1, h2⟩
    exact ⟨h1, fun e he => ⟨(h2 e he).2.1, (h2 e he).2.2⟩⟩
  · rintro ⟨h1, h2⟩
    exact ⟨h1, fun e he => ⟨List.not_mem_nil _, (h2 e he).1, (h2 e he).2⟩⟩

/-- Distinct keys plus a failing value-distinctness scan yield two entries
with different slots holding the same word. -/
theorem keys_distinct_values_dup :
    ∀ (l : List (Var × Word)),
      List.Pairwise (fun e f => e.1 ≠ f.1) l →
      ¬ List.Pairwise (fun e f : Var × Word => e.2 ≠ f.2) l →
      ∃ e ∈ l, ∃ f ∈ l, e.1 ≠ f.1 ∧ e.2 = f.2 := by
  intro l
  induction l with
  | nil => intro _ hnp; exact absurd List.Pairwise.nil hnp
  | cons e t ih =>
    intro hk hnp
    rw [List.pairwise_cons] at hk hnp
    rcases Classical.not_and_iff_or_not_not.mp hnp with h1 | h2
    · push_neg at h1
      obtain ⟨f, hf, hvv⟩ := h1
      exact ⟨e, List.mem_cons_self _ _, f, List.mem_cons_of_mem _ hf,
        hk.1 f hf, hvv⟩
    · obtain ⟨e2, he2, f2, hf2, hkk, hvv⟩ := ih hk.2 h2
      exact ⟨e2, List.mem_cons_of_mem _ he2, f2, List.mem_cons_of_mem _ hf2,
        hkk, hvv⟩

/-- Total-model characterization of `consistent` over a well-formed puzzle
model (all assigned slots are puzzle slots, no slot is assigned twice, no
slot overlaps itself): false exactly when (a) two assigned slots hold the
identical word, or (b) an assigned word's length differs from its slot's
length, or (c) two assigned overlapping slots disagree at their shared
character indices.  The claim-level statement, which must account for the
source's `IndexError` on out-of-range overlap indices, is
`consistentE_false_iff` below. -/
theorem consistent_false_iff (p : Puzzle) (a : Assignment)
    (hnd : (a.map Prod.fst).Nodup) (hsub : ∀ e ∈ a, e.1 ∈ p.vars)
    (hirr : OverlapIrrefl p) :
    consistent p a = false ↔ specInconsistent p a := by
  rw [← Bool.not_eq_true, consistent_true_iff]
  constructor
  · intro hneg
    rcases Classical.not_and_iff_or_not_not.mp hneg with hpw | hall
    · have hkeys : List.Pairwise (fun e f : Var × Word => e.1 ≠ f.1) a := by
        rw [← List.pairwise_map (f := Prod.fst)]
        exact hnd
      obtain ⟨e, he, f, hf, hkk, hvv⟩ := keys_distinct_values_dup a hkeys hpw
      exact Or.inl ⟨e, he, f, hf, hkk, hvv⟩
    · push_neg at hall
      obtain ⟨e, he, hbad⟩ := hall
      by_cases hlen : e.2.length = p.length e.1
      · refine Or.inr (Or.inr ?_)
        obtain ⟨y, hy, wy, hl, hsat⟩ := hbad hlen
        have hyov : (p.overlaps e.1 y).isSome := by
          have := (List.mem_filter.mp hy).2
          simp only [Bool.and_eq_true, decide_eq_true_eq] at this
          exact this.2
        cases hov : p.overlaps e.1 y with
        | none => rw [hov] at hyov; cases hyov
        | some ixy =>
          obtain ⟨ix, iy⟩ := ixy
          refine ⟨e, he, (y, wy), lookup_mem hl, ix, iy, hov, ?_⟩
          have hsf : overlap_satisfied p e.1 y e.2 wy = false :=
            Bool.not_eq_true _ ▸ hsat
          unfold overlap_satisfied at hsf
          rw [hov] at hsf
          simpa using hsf
      · exact Or.inr (Or.inl ⟨e, he, fun h => absurd h hlen⟩)
  · intro hspec
    rcases hspec with ⟨e, he, f, hf, hkk, hvv⟩ | ⟨e, he, hlen⟩ | hc
    · rintro ⟨hpw, -⟩
      have hef : e ≠ f := fun h => hkk (congrArg Prod.fst h)
      have hsymm : Symmetric (fun e f : Var × Word => e.2 ≠ f.2) :=
        fun x y h h2 => h h2.symm
      exact List.Pairwise.forall hsymm hpw he hf hef hvv
    · rintro ⟨-, hall⟩
      exact hlen ((hall e he).1)
    · obtain ⟨e, he, f, hf, ix, iy, hov, hne⟩ := hc
      rintro ⟨-, hall⟩
      have hxy : e.1 ≠ f.1 := by
        intro h
        rw [h] at hov
        rw [hirr f.1] at hov
        cases hov
      have hynb : f.1 ∈ neighbors p e.1 := by
        rw [neighbors, List.mem_filter]
        refine ⟨hsub f hf, ?_⟩
        simp [Ne.symm hxy, hov]
      have hl : a.lookup f.1 = some f.2 := mem_lookup hnd (by
        obtain ⟨fk, fv⟩ := f
        exact hf)
      have := (hall e he).2 f.1 hynb f.2 hl
      unfold overlap_satisfied at this
      rw [hov] at this
      exact hne (by simpa using this)

/-- The total-model characterization instantiated at a concrete puzzle and
assignment, with all well-formedness hypotheses checked by evaluation. -/
theorem consistent_false_iff_witness :
    (consistent p3 [(0, cw "da"), (1, cw "cci")] = false ↔
      specInconsistent p3 [(0, cw "da"), (1, cw "cci")]) ∧
    (consistent p3 sol3 = false ↔ specInconsistent p3 sol3) :=
  ⟨consistent_false_iff p3 [(0, cw "da"), (1, cw "cci")] (by decide) (by decide)
      (by intro x; simp only [p3]; split_ifs with h1 h2 h3 h4 h5 h6 <;>
        first | rfl | (rcases ‹_ ∧ _› with ⟨rfl, h⟩; exact absurd h (by decide))),
    consistent_false_iff p3 sol3 (by decide) (by decide)
      (by intro x; simp only [p3]; split_ifs with h1 h2 h3 h4 h5 h6 <;>
        first | rfl | (rcases ‹_ ∧ _› with ⟨rfl, h⟩; exact absurd h (by decide)))⟩

/-! ### The partiality of `consistent` (C8) -/

theorem overlap_satisfiedE_agrees (p : Puzzle) (x y : Var) (vx vy : Word)
    (b : Bool) (h : overlap_satisfiedE p x y vx vy = some b) :
    overlap_satisfied p x y vx vy = b := by
  unfold overlap_satisfiedE at h
  unfold overlap_satisfied
  cases ho : p.overlaps x y with
  | none =>
    rw [ho] at h
    cases h
    rfl
  | some ij =>
    obtain ⟨ix, iy⟩ := ij
    rw [ho] at h
    dsimp only at h
    cases hx : vx.get? ix with
    | none =>
      rw [hx] at h
      cases h
    | some cx =>
      cases hy : vy.get? iy with
      | none =>
        rw [hx, hy] at h
        cases h
      | some cy =>
        rw [hx, hy] at h
        dsimp only at h
        rw [Option.some.injEq] at h
        subst h
        dsimp only
        rw [hx, hy]
        exact decide_eq_decide.mpr Option.some_inj

theorem consNbrE_agrees (p : Puzzle) (a : Assignment) (x : Var) (wx : Word) :
    ∀ (l : List Var) (b : Bool), consNbrE p a x wx l = some b →
      (l.any (fun y =>
        match a.lookup y with
        | some wy => ! overlap_satisfied p x y wx wy
        | none => false)) = ! b := by
  intro l
  induction l with
  | nil =>
    intro b h
    cases h
    rfl
  | cons y rest ih =>
    intro b h
    rw [List.any_cons]
    unfold consNbrE at h
    cases hl : a.lookup y with
    | none =>
      rw [hl] at h
      dsimp only at h
      dsimp only
      rw [Bool.false_or]
      exact ih b h
    | some wy =>
      rw [hl] at h
      dsimp only at h
      cases hov : overlap_satisfiedE p x y wx wy with
      | none =>
        rw [hov] at h
        cases h
      | some bo =>
        rw [hov] at h
        dsimp only at h
        have hsat := overlap_satisfiedE_agrees p x y wx wy bo hov
        dsimp only
        rw [hsat]
        cases bo with
        | true =>
          rw [if_pos rfl] at h
          rw [ih b h]
          rfl
        | false =>
          rw [if_neg (by decide)] at h
          rw [Option.some.injEq] at h
          subst h
          rfl

theorem consAuxE_agrees (p : Puzzle) (a : Assignment) :
    ∀ (l : List (Var × Word)) (pr : List Word) (b : Bool),
      consAuxE p a l pr = some b → consAux p a l pr = b := by
  intro l
  induction l with
  | nil =>
    intro pr b h
    cases h
    rfl
  | cons e rest ih =>
    intro pr b h
    obtain ⟨x, wx⟩ := e
    unfold consAuxE at h
    simp only [consAux]
    by_cases hA : wx ∈ pr
    · rw [if_pos hA] at h ⊢
      rw [Option.some.injEq] at h
      exact h.symm ▸ rfl
    · rw [if_neg hA] at h ⊢
      by_cases hB : wx.length ≠ p.length x
      · rw [if_pos hB] at h ⊢
        rw [Option.some.injEq] at h
        exact h.symm ▸ rfl
      · rw [if_neg hB] at h ⊢
        cases hnb : consNbrE p a x wx (neighbors p x) with
        | none =>
          rw [hnb] at h
          cases h
        | some bo =>
          rw [hnb] at h
          have hany := consNbrE_agrees p a x wx (neighbors p x) bo hnb
          cases bo with
          | false =>
            dsimp only at h
            rw [Option.some.injEq] at h
            rw [if_pos (by rw [hany]; rfl)]
            exact h.symm ▸ rfl
          | true =>
            dsimp only at h
            rw [if_neg (by rw [hany]; decide)]
            exact ih (wx :: pr) b h

theorem consistentE_agrees (p : Puzzle) (a : Assignment) (b : Bool)
    (h : consistentE p a = some b) : consistent p a = b :=
  consAuxE_agrees p a a [] b h

/-- C8, counterexample: on `p2` with slot 0 assigned `cat` (inserted first)
and slot 1 assigned the too-short word `a`, clause (b) of the claim holds,
so the claim asserts that `consistent` returns false; but the source never
returns a boolean on this assignment: the scan reaches
`overlap_satisfied(0, 1, "cat", "a")` and raises `IndexError` at `"a"[1]`
(`consistentE` = `none`). -/
theorem consistent_raises_on_short_word :
    consistentE p2 [(0, cw "cat"), (1, cw "a")] = none ∧
    specInconsistent p2 [(0, cw "cat"), (1, cw "a")] :=
  ⟨by decide, Or.inr (Or.inl ⟨(1, cw "a"), by decide, by decide⟩)⟩

/-- C8, amended: for every (possibly partial) assignment on which the check
completes without an `IndexError` — `consistentE` returns a boolean — that
boolean is false exactly when (a) two assigned slots hold the identical
word, (b) some assigned word's length differs from its slot's length, or
(c) two assigned overlapping slots disagree at their shared character
indices; otherwise it is true.  (Well-formedness as before: assigned slots
are puzzle slots with distinct keys and no slot overlaps itself.)  When an
evaluated overlap indexes past the end of an assigned word, `consistent`
raises instead of returning, as the counterexample shows. -/
theorem consistentE_false_iff (p : Puzzle) (a : Assignment) (bb : Bool)
    (hnd : (a.map Prod.fst).Nodup) (hsub : ∀ e ∈ a, e.1 ∈ p.vars)
    (hirr : OverlapIrrefl p) (hcompl : consistentE p a = some bb) :
    (bb = false ↔ specInconsistent p a) := by
  have he := consistentE_agrees p a bb hcompl
  rw [← he]
  exact consistent_false_iff p a hnd hsub hirr

/-- The overlap relation of `p3` is irreflexive. -/
theorem p3_overlapIrrefl : OverlapIrrefl p3 := by
  intro x
  simp only [p3]
  split_ifs with h1 h2 h3 h4 h5 h6 <;>
    first
    | rfl
    | (rcases ‹_ ∧ _› with ⟨rfl, h⟩; exact absurd h (by decide))

/-- Witness for the amended C8: a completing check on `p3` returning false,
with the equivalence instantiated there. -/
theorem consistentE_false_iff_witness :
    consistentE p3 [(0, cw "da"), (1, cw "cci")] = some false ∧
    (false = false ↔ specInconsistent p3 [(0, cw "da"), (1, cw "cci")]) :=
  ⟨by decide,
    consistentE_false_iff p3 [(0, cw "da"), (1, cw "cci")] false (by decide)
      (by decide) p3_overlapIrrefl (by decide)⟩

/-! ### Soundness of both search variants (C1) -/

theorem heapWords_mem {p : Puzzle} {st : St} (h : HeapWords p st) :
    ∀ v, ∀ w ∈ domainsOf st v, w ∈ p.words := by
  intro v w hw
  unfold domainsOf at hw
  rcases Nat.lt_or_ge st.cur st.heap.length with hc | hc
  · rw [List.getD_eq_getElem _ _ hc] at hw
    exact h _ (st.heap.getElem_mem hc) v w hw
  · rw [List.getD_eq_default _ _ hc] at hw
    cases hw

theorem heapWords_setCur {p : Puzzle} {st : St} (h : HeapWords p st)
    {dnew : Domains} (hd : ∀ v, ∀ w ∈ dnew v, w ∈ p.words) :
    HeapWords p (setCur st dnew) := by
  intro dm hdm v w hw
  rcases List.mem_or_eq_of_mem_set hdm with hin | he
  · exact h dm hin v w hw
  · exact hd v w (he ▸ hw)

theorem heapWords_snapshot {p : Puzzle} {st : St} (h : HeapWords p st) :
    HeapWords p (snapshot st).2 := by
  intro dm hdm v w hw
  rcases List.mem_append.mp hdm with hin | he
  · exact h dm hin v w hw
  · rw [List.mem_singleton] at he
    exact heapWords_mem h v w (he ▸ hw)

theorem revise_sub (p : Puzzle) (d : Domains) (x y : Var) :
    ∀ v, ∀ w ∈ (revise p d x y).1 v, w ∈ d v := by
  intro v w hw
  unfold revise at hw
  dsimp only at hw
  by_cases hv : v = x
  · subst hv
    rw [Function.update_same] at hw
    exact (List.mem_filter.mp hw).1
  · rwa [Function.update_noteq hv] at hw

theorem ac3Go_sub (p : Puzzle) :
    ∀ (fuel : Nat) (d : Domains) (arcs : List Arc) (d1 : Domains) (b : Bool),
      ac3Go p fuel d arcs = some (d1, b) → ∀ v, ∀ w ∈ d1 v, w ∈ d v := by
  intro fuel
  induction fuel with
  | zero => intro d arcs d1 b h; cases h
  | succ fuel ih =>
    intro d arcs d1 b h
    rw [ac3Go] at h
    rcases hq : arcs.getLast? with - | ⟨x, y⟩
    · rw [hq] at h
      cases h
      exact fun v w hw => hw
    · rw [hq] at h
      simp only at h
      split at h
      · split at h
        · cases h
          exact revise_sub p d x y
        · intro v w hw
          exact revise_sub p d x y v w (ih _ _ _ _ h v w hw)
      · intro v w hw
        exact revise_sub p d x y v w (ih _ _ _ _ h v w hw)

theorem ac3_sub (p : Puzzle) (fuel : Nat) (d : Domains) (arcs : Option (List Arc))
    (d1 : Domains) (b : Bool) (h : ac3 p fuel d arcs = some (d1, b)) :
    ∀ v, ∀ w ∈ d1 v, w ∈ d v := by
  unfold ac3 at h
  rcases arcs with - | l
  · exact ac3Go_sub p fuel d _ d1 b h
  · dsimp only at h
    by_cases hl : l.isEmpty = true
    · rw [if_pos hl] at h
      exact ac3Go_sub p fuel d _ d1 b h
    · rw [if_neg hl] at h
      exact ac3Go_sub p fuel d _ d1 b h

theorem enforce_node_consistency_sub (p : Puzzle) :
    ∀ (vs : List Var) (d : Domains) (v : Var),
      ∀ w ∈ vs.foldl
        (fun d v => Function.update d v ((d v).filter (fun w => w.length == p.length v))) d v,
        w ∈ d v := by
  intro vs
  induction vs with
  | nil => intro d v w hw; exact hw
  | cons u rest ih =>
    intro d v w hw
    rw [List.foldl_cons] at hw
    have h2 := ih _ v w hw
    by_cases hv : v = u
    · subst hv
      rw [Function.update_same] at h2
      exact (List.mem_filter.mp h2).1
    · rwa [Function.update_noteq hv] at h2

theorem order_domain_values_mem (p : Puzzle) (d : Domains) (var : Var)
    (a : Assignment) : ∀ v ∈ order_domain_values p d var a, v ∈ d var := by
  intro v hv
  unfold order_domain_values at hv
  exact (List.mem_insertionSort _).mp hv

theorem heapWords_liftAc3 {p : Puzzle} {st : St} (h : HeapWords p st)
    {fuel : Nat} {arcs : Option (List Arc)} {st1 : St} {b : Bool}
    (hl : liftAc3 p fuel st arcs = some (st1, b)) : HeapWords p st1 := by
  unfold liftAc3 at hl
  cases hac : ac3 p fuel (domainsOf st) arcs with
  | none => rw [hac] at hl; cases hl
  | some pr =>
    obtain ⟨d1, b1⟩ := pr
    rw [hac] at hl
    dsimp only at hl
    rw [Option.some.injEq, Prod.mk.injEq] at hl
    obtain ⟨hst, -⟩ := hl
    rw [← hst]
    exact heapWords_setCur h
      (fun v w hw => heapWords_mem h v w (ac3_sub p fuel _ arcs d1 b1 hac v w hw))

/-- Collapsing one slot's domain to a word of the word list keeps the store
word-bounded. -/
theorem heapWords_collapse {p : Puzzle} {st : St} (h : HeapWords p st)
    {var : Var} {v : Word} (hv : v ∈ p.words) :
    HeapWords p (setCur st (Function.update (domainsOf st) var [v])) := by
  refine heapWords_setCur h ?_
  intro u w hw
  by_cases hu : u = var
  · subst hu
    rw [Function.update_same, List.mem_singleton] at hw
    exact hw ▸ hv
  · rw [Function.update_noteq hu] at hw
    exact heapWords_mem h u w hw

theorem btAc3Go_heapWords (p : Puzzle) (fuel : Nat)
    (recur : Assignment → St → Option (Option Assignment) × St)
    (hrec : ∀ a st, HeapWords p st → HeapWords p (recur a st).2)
    (var : Var) (snap : Nat) :
    ∀ (vals : List Word) (a : Assignment) (st : St),
      HeapWords p st → (∀ v ∈ vals, v ∈ p.words) →
      HeapWords p (btAc3Go p fuel recur var snap a vals st).2 := by
  intro vals
  induction vals with
  | nil => intro a st h _; exact h
  | cons v rest ih =>
    intro a st h hvals
    simp only [btAc3Go]
    split
    · have h1 : HeapWords p { st with wtCount := st.wtCount + 1 } := h
      have h2 : HeapWords p (setCur { st with wtCount := st.wtCount + 1 }
          (Function.update (domainsOf { st with wtCount := st.wtCount + 1 }) var [v])) :=
        heapWords_collapse h1 (hvals v (List.mem_cons_self _ _))
      cases hac : liftAc3 p fuel
          (setCur { st with wtCount := st.wtCount + 1 }
            (Function.update (domainsOf { st with wtCount := st.wtCount + 1 }) var [v]))
          (some ((neighbors p var).map (fun z => (z, var)))) with
      | none => exact h2
      | some pr =>
        obtain ⟨st3, b3⟩ := pr
        dsimp only
        have h3 : HeapWords p st3 := heapWords_liftAc3 h2 hac
        have h4 := hrec ((var, v) :: a) st3
        rcases hr : recur ((var, v) :: a) st3 with ⟨res, st4⟩
        have h5 : HeapWords p st4 := by
          have h6 := h4 h3
          rw [hr] at h6
          exact h6
        match res with
        | none => exact h5
        | some none =>
          exact ih a (restoreTo st4 snap) h5
            (fun w hw => hvals w (List.mem_cons_of_mem _ hw))
        | some (some r) =>
          dsimp only
          split
          · exact ih a (restoreTo st4 snap) h5
              (fun w hw => hvals w (List.mem_cons_of_mem _ hw))
          · exact h5
    · exact ih a (restoreTo { st with wtCount := st.wtCount + 1 } snap) h
        (fun w hw => hvals w (List.mem_cons_of_mem _ hw))

theorem btAc3_heapWords :
    ∀ (fuel : Nat) (p : Puzzle) (a : Assignment) (st : St), HeapWords p st →
      HeapWords p (backtrack_ac3 fuel p a st).2 := by
  intro fuel
  induction fuel with
  | zero => intro p a st h; exact h
  | succ fuel ih =>
    intro p a st h
    simp only [backtrack_ac3]
    split
    · exact h
    · have hsnap : HeapWords p (snapshot { st with btCount := st.btCount + 1 }).2 :=
        heapWords_snapshot h
      exact btAc3Go_heapWords p fuel (backtrack_ac3 fuel p) (fun a st hst => ih p a st hst)
        _ _ _ a _ hsnap
        (fun v hv => heapWords_mem hsnap _ v (order_domain_values_mem p _ _ a v hv))

theorem heapWords_of_heap_eq {p : Puzzle} {st st1 : St} (h : HeapWords p st)
    (he : st1.heap = st.heap) : HeapWords p st1 := by
  intro dm hdm
  exact h dm (he ▸ hdm)

/-- Soundness of the plain candidate loop: a returned assignment is complete,
consistent, and only uses words of the word list. -/
theorem btGo_sound (p : Puzzle)
    (recur : Assignment → St → Option (Option Assignment) × St)
    (hrec : ∀ a st r st1, HeapWords p st → AssignWords p a → consistent p a = true →
        recur a st = (some (some r), st1) →
        assignment_complete p r = true ∧ consistent p r = true ∧ AssignWords p r)
    (hframe : ∀ a st, ((recur a st).2).heap = st.heap)
    (var : Var) :
    ∀ (vals : List Word), (∀ v ∈ vals, v ∈ p.words) →
      ∀ (a : Assignment) (st : St) (r : Assignment) (st1 : St),
        HeapWords p st → AssignWords p a →
        btGo p recur var a vals st = (some (some r), st1) →
        assignment_complete p r = true ∧ consistent p r = true ∧ AssignWords p r := by
  intro vals
  induction vals with
  | nil =>
    intro _ a st r st1 _ _ heq
    cases heq
  | cons v rest ih =>
    intro hvals a st r st1 hhw haw
    simp only [btGo]
    split
    · rcases hr : recur ((var, v) :: a)
          { st with wtCount := st.wtCount + 1 } with ⟨res, st2⟩
      have hhw2 : HeapWords p st2 := by
        refine heapWords_of_heap_eq hhw ?_
        have := hframe ((var, v) :: a) { st with wtCount := st.wtCount + 1 }
        rw [hr] at this
        exact this
      have haw1 : AssignWords p ((var, v) :: a) := by
        intro e he
        rcases List.mem_cons.mp he with he1 | he2
        · subst he1
          exact hvals v (List.mem_cons_self _ _)
        · exact haw e he2
      match res with
      | none =>
        intro heq
        cases heq
      | some none =>
        exact ih (fun w hw => hvals w (List.mem_cons_of_mem _ hw)) a st2 r st1 hhw2 haw
      | some (some r0) =>
        dsimp only
        split
        · exact ih (fun w hw => hvals w (List.mem_cons_of_mem _ hw)) a st2 r st1 hhw2 haw
        · intro heq
          rw [Prod.mk.injEq, Option.some.injEq, Option.some.injEq] at heq
          obtain ⟨hr0, -⟩ := heq
          subst hr0
          exact hrec ((var, v) :: a) { st with wtCount := st.wtCount + 1 } r0 st2
            hhw haw1 (by assumption) hr
    · exact ih (fun w hw => hvals w (List.mem_cons_of_mem _ hw)) a
        { st with wtCount := st.wtCount + 1 } r st1 hhw haw

theorem backtrack_sound :
    ∀ (fuel : Nat) (p : Puzzle) (a : Assignment) (st : St) (r : Assignment) (st1 : St),
      HeapWords p st → AssignWords p a → consistent p a = true →
      backtrack fuel p a st = (some (some r), st1) →
      assignment_complete p r = true ∧ consistent p r = true ∧ AssignWords p r := by
  intro fuel
  induction fuel with
  | zero =>
    intro p a st r st1 _ _ _ heq
    cases heq
  | succ fuel ih =>
    intro p a st r st1 hhw haw hcons
    simp only [backtrack]
    split
    · intro heq
      rw [Prod.mk.injEq, Option.some.injEq, Option.some.injEq] at heq
      obtain ⟨ha, -⟩ := heq
      subst ha
      exact ⟨by assumption, hcons, haw⟩
    · exact btGo_sound p (backtrack fuel p)
        (fun a st r st1 hw1 hw2 hw3 heq => ih p a st r st1 hw1 hw2 hw3 heq)
        (fun a st => (backtrack_frame fuel p a st).1) _ _
        (fun v hv => heapWords_mem hhw _ v (order_domain_values_mem p _ _ a v hv))
        a _ r st1 hhw haw

/-- Soundness of the interleaved candidate loop. -/
theorem btAc3Go_sound (p : Puzzle) (fuel : Nat)
    (recur : Assignment → St → Option (Option Assignment) × St)
    (hrec : ∀ a st r st1, HeapWords p st → AssignWords p a → consistent p a = true →
        recur a st = (some (some r), st1) →
        assignment_complete p r = true ∧ consistent p r = true ∧ AssignWords p r)
    (hrecHW : ∀ a st, HeapWords p st → HeapWords p (recur a st).2)
    (var : Var) (snap : Nat) :
    ∀ (vals : List Word), (∀ v ∈ vals, v ∈ p.words) →
      ∀ (a : Assignment) (st : St) (r : Assignment) (st1 : St),
        HeapWords p st → AssignWords p a →
        btAc3Go p fuel recur var snap a vals st = (some (some r), st1) →
        assignment_complete p r = true ∧ consistent p r = true ∧ AssignWords p r := by
  intro vals
  induction vals with
  | nil =>
    intro _ a st r st1 _ _ heq
    cases heq
  | cons v rest ih =>
    intro hvals a st r st1 hhw haw
    simp only [btAc3Go]
    split
    · have h1 : HeapWords p { st with wtCount := st.wtCount + 1 } := hhw
      have h2 : HeapWords p (setCur { st with wtCount := st.wtCount + 1 }
          (Function.update (domainsOf { st with wtCount := st.wtCount + 1 }) var [v])) :=
        heapWords_collapse h1 (hvals v (List.mem_cons_self _ _))
      have haw1 : AssignWords p ((var, v) :: a) := by
        intro e he
        rcases List.mem_cons.mp he with he1 | he2
        · subst he1
          exact hvals v (List.mem_cons_self _ _)
        · exact haw e he2
      cases hac : liftAc3 p fuel
          (setCur { st with wtCount := st.wtCount + 1 }
            (Function.update (domainsOf { st with wtCount := st.wtCount + 1 }) var [v]))
          (some ((neighbors p var).map (fun z => (z, var)))) with
      | none =>
        intro heq
        cases heq
      | some pr =>
        obtain ⟨st3, b3⟩ := pr
        dsimp only
        have h3 : HeapWords p st3 := heapWords_liftAc3 h2 hac
        have h5pre := hrecHW ((var, v) :: a) st3 h3
        rcases hr : recur ((var, v) :: a) st3 with ⟨res, st4⟩
        have h5 : HeapWords p st4 := by
          rw [hr] at h5pre
          exact h5pre
        have h5r : HeapWords p (restoreTo st4 snap) :=
          heapWords_of_heap_eq h5 rfl
        match res with
        | none =>
          intro heq
          cases heq
        | some none =>
          exact ih (fun w hw => hvals w (List.mem_cons_of_mem _ hw)) a
            (restoreTo st4 snap) r st1 h5r haw
        | some (some r0) =>
          dsimp only
          split
          · exact ih (fun w hw => hvals w (List.mem_cons_of_mem _ hw)) a
              (restoreTo st4 snap) r st1 h5r haw
          · intro heq
            rw [Prod.mk.injEq, Option.some.injEq, Option.some.injEq] at heq
            obtain ⟨hr0, -⟩ := heq
            subst hr0
            exact hrec ((var, v) :: a) st3 r0 st4 h3 haw1 (by assumption) hr
    · exact ih (fun w hw => hvals w (List.mem_cons_of_mem _ hw)) a
        (restoreTo { st with wtCount := st.wtCount + 1 } snap) r st1 hhw haw

theorem backtrack_ac3_sound :
    ∀ (fuel : Nat) (p : Puzzle) (a : Assignment) (st : St) (r : Assignment) (st1 : St),
      HeapWords p st → AssignWords p a → consistent p a = true →
      backtrack_ac3 fuel p a st = (some (some r), st1) →
      assignment_complete p r = true ∧ consistent p r = true ∧ AssignWords p r := by
  intro fuel
  induction fuel with
  | zero =>
    intro p a st r st1 _ _ _ heq
    cases heq
  | succ fuel ih =>
    intro p a st r st1 hhw haw hcons
    simp only [backtrack_ac3]
    split
    · intro heq
      rw [Prod.mk.injEq, Option.some.injEq, Option.some.injEq] at heq
      obtain ⟨ha, -⟩ := heq
      subst ha
      exact ⟨by assumption, hcons, haw⟩
    · have hsnap : HeapWords p (snapshot { st with btCount := st.btCount + 1 }).2 :=
        heapWords_snapshot hhw
      exact btAc3Go_sound p fuel (backtrack_ac3 fuel p)
        (fun a st r st1 hw1 hw2 hw3 heq => ih p a st r st1 hw1 hw2 hw3 heq)
        (fun a st hst => btAc3_heapWords fuel p a st hst) _ _ _
        (fun v hv => heapWords_mem hsnap _ v (order_domain_values_mem p _ _ a v hv))
        a _ r st1 hsnap haw

/-- The empty assignment is consistent. -/
theorem consistent_nil (p : Puzzle) : consistent p [] = true := rfl

/-- The initial store only holds words of the word list. -/
theorem heapWords_initSt (p : Puzzle) : HeapWords p (initSt p) := by
  intro dm hdm v w hw
  unfold initSt at hdm
  rw [List.mem_singleton] at hdm
  subst hdm
  unfold initDomains at hw
  split at hw
  · exact hw
  · cases hw

/-- C1: any non-`None` assignment returned by `solve` — through either
`backtrack` or `backtrack_ac3` — is complete, passes `consistent`, and maps
every slot to a word present in the original word list; a returned value is
never a partial assignment. -/
theorem solve_returns_sound (p : Puzzle) (fuel : Nat) (interleaving : Bool)
    (a : Assignment) (h : (solveRun p interleaving fuel).1 = some (some a)) :
    assignment_complete p a = true ∧ consistent p a = true ∧
      ∀ e ∈ a, e.2 ∈ p.words := by
  simp only [solveRun, solve] at h
  set st1 := setCur (initSt p)
    (enforce_node_consistency p (domainsOf (initSt p))) with hst1
  have hhw1 : HeapWords p st1 := by
    refine heapWords_setCur (heapWords_initSt p) ?_
    intro v w hw
    have hsub := enforce_node_consistency_sub p p.vars (domainsOf (initSt p)) v w hw
    exact heapWords_mem (heapWords_initSt p) v w hsub
  rcases hac : liftAc3 p fuel st1 none with - | ⟨st2, b2⟩
  · rw [hac] at h
    cases h
  · rw [hac] at h
    have hhw2 : HeapWords p st2 := heapWords_liftAc3 hhw1 hac
    dsimp only at h
    split at h
    · rcases hbt : backtrack_ac3 fuel p [] st2 with ⟨res, st3⟩
      rw [hbt] at h
      dsimp only at h
      subst h
      exact backtrack_ac3_sound fuel p [] st2 a st3 hhw2
        (fun e he => absurd he (List.not_mem_nil e)) (consistent_nil p) hbt
    · rcases hbt : backtrack fuel p [] st2 with ⟨res, st3⟩
      rw [hbt] at h
      dsimp only at h
      subst h
      exact backtrack_sound fuel p [] st2 a st3 hhw2
        (fun e he => absurd he (List.not_mem_nil e)) (consistent_nil p) hbt

/-- Witness for C1: the plain run on `p3` returns `sol3`, which is complete,
consistent and drawn from the word list. -/
theorem solve_returns_sound_witness :
    (solveRun p3 false 50).1 = some (some sol3) ∧
    (assignment_complete p3 sol3 = true ∧ consistent p3 sol3 = true ∧
      ∀ e ∈ sol3, e.2 ∈ p3.words) :=
  ⟨by decide, solve_returns_sound p3 50 false sol3 (by decide)⟩

/-! ### Arc consistency of a successful full AC-3 run (C5) -/

theorem hasSupport_iff (p : Puzzle) (d : Domains) (x y : Var) (vx : Word) :
    hasSupport p d x y vx = true ↔
      ∃ vy ∈ d y, vx ≠ vy ∧ overlap_satisfied p x y vx vy = true := by
  unfold hasSupport
  rw [List.any_eq_true]
  constructor
  · rintro ⟨vy, hvy, hb⟩
    rw [Bool.and_eq_true, decide_eq_true_eq] at hb
    exact ⟨vy, hvy, hb.1, hb.2⟩
  · rintro ⟨vy, hvy, h1, h2⟩
    refine ⟨vy, hvy, ?_⟩
    rw [Bool.and_eq_true, decide_eq_true_eq]
    exact ⟨h1, h2⟩

theorem revise_fst_apply (p : Puzzle) (d : Domains) (x y : Var) :
    (revise p d x y).1 x = (d x).filter (fun vx => hasSupport p d x y vx) :=
  Function.update_same _ _ _

theorem revise_fst_ne (p : Puzzle) (d : Domains) (x y z : Var) (h : z ≠ x) :
    (revise p d x y).1 z = d z :=
  Function.update_noteq h _ _

theorem revise_false_supported (p : Puzzle) (d : Domains) (x y : Var)
    (h : (revise p d x y).2 = false) : arcSupported p d x y := by
  unfold revise at h
  dsimp only at h
  rw [List.any_eq_false] at h
  intro vx hvx
  have h2 := h vx hvx
  rw [Bool.not_eq_true', Bool.not_eq_false] at h2
  exact (hasSupport_iff p d x y vx).mp h2

theorem revise_false_eq (p : Puzzle) (d : Domains) (x y : Var)
    (h : (revise p d x y).2 = false) : (revise p d x y).1 = d := by
  have hall : ∀ vx ∈ d x, hasSupport p d x y vx = true := by
    unfold revise at h
    dsimp only at h
    rw [List.any_eq_false] at h
    intro vx hvx
    have h2 := h vx hvx
    rwa [Bool.not_eq_true', Bool.not_eq_false] at h2
  unfold revise
  dsimp only
  rw [List.filter_eq_self.mpr hall, Function.update_eq_self]

theorem revise_post (p : Puzzle) (d : Domains) (x y : Var) (hxy : x ≠ y) :
    arcSupported p (revise p d x y).1 x y := by
  intro vx hvx
  rw [revise_fst_apply] at hvx
  have h2 := (List.mem_filter.mp hvx).2
  rw [hasSupport_iff] at h2
  obtain ⟨vy, hvy, h3, h4⟩ := h2
  refine ⟨vy, ?_, h3, h4⟩
  rw [revise_fst_ne p d x y y (Ne.symm hxy)]
  exact hvy

theorem overlap_satisfied_symm (p : Puzzle) (hs : OverlapSymm p) (x y : Var)
    (vx vy : Word) (h : overlap_satisfied p y x vy vx = true) :
    overlap_satisfied p x y vx vy = true := by
  unfold overlap_satisfied at h ⊢
  cases ho : p.overlaps x y with
  | none => rfl
  | some ij =>
    obtain ⟨i, j⟩ := ij
    have hyx := hs x y i j ho
    rw [hyx] at h
    rw [decide_eq_true_eq] at h
    rw [decide_eq_true_eq]
    exact h.symm

theorem mem_neighbors (p : Puzzle) (x z : Var) :
    z ∈ neighbors p x ↔ z ∈ p.vars ∧ z ≠ x ∧ (p.overlaps x z).isSome := by
  unfold neighbors
  rw [List.mem_filter, Bool.and_eq_true, decide_eq_true_eq]

theorem mem_seedArcs (p : Puzzle) (x y : Var) :
    (x, y) ∈ seedArcs p ↔ x ∈ p.vars ∧ y ∈ p.vars ∧ y ≠ x := by
  unfold seedArcs
  rw [List.mem_flatMap]
  constructor
  · rintro ⟨u, hu, hmem⟩
    rw [List.mem_map] at hmem
    obtain ⟨w, hw, heq⟩ := hmem
    rw [List.mem_filter, decide_eq_true_eq] at hw
    cases heq
    exact ⟨hu, hw.1, hw.2⟩
  · rintro ⟨hx, hy, hxy⟩
    exact ⟨x, hx, List.mem_map.mpr ⟨y, List.mem_filter.mpr ⟨hy, decide_eq_true hxy⟩, rfl⟩⟩

theorem ac3Go_inv (p : Puzzle) (hs : OverlapSymm p) :
    ∀ (fuel : Nat) (d : Domains) (arcs : List Arc) (d1 : Domains),
      QueueWF arcs → AC3Inv p d arcs →
      ac3Go p fuel d arcs = some (d1, true) →
      ∀ x y, x ∈ p.vars → y ∈ p.vars → x ≠ y → (p.overlaps x y).isSome →
        arcSupported p d1 x y := by
  intro fuel
  induction fuel with
  | zero => intro d arcs d1 _ _ heq; cases heq
  | succ fuel ih =>
    intro d arcs d1 hwf hinv heq
    simp only [ac3Go] at heq
    cases hq : arcs.getLast? with
    | none =>
      rw [hq] at heq
      dsimp only at heq
      rw [Option.some.injEq, Prod.mk.injEq] at heq
      obtain ⟨hd, -⟩ := heq
      subst hd
      intro x y hx hy hxy hov
      have harcs : arcs = [] := List.getLast?_eq_none_iff.mp hq
      exact hinv x y hx hy hxy hov (by rw [harcs]; exact List.not_mem_nil _)
    | some pr =>
      obtain ⟨x0, y0⟩ := pr
      rw [hq] at heq
      dsimp only at heq
      have hdecomp := List.dropLast_append_getLast? (x0, y0) hq
      have hx0y0 : x0 ≠ y0 := hwf (x0, y0) (by
        rw [← hdecomp]
        exact List.mem_append_right _ (List.mem_singleton.mpr rfl))
      by_cases hch : (revise p d x0 y0).2 = true
      · rw [if_pos hch] at heq
        by_cases hemp : (((revise p d x0 y0).1) x0).isEmpty = true
        · rw [if_pos hemp] at heq
          rw [Option.some.injEq, Prod.mk.injEq] at heq
          exact absurd heq.2 (by decide)
        · rw [if_neg hemp] at heq
          refine ih _ _ d1 ?_ ?_ heq
          · intro pr2 hpr2
            rcases List.mem_append.mp hpr2 with hl | hr
            · exact hwf pr2 (by rw [← hdecomp]; exact List.mem_append_left _ hl)
            · rw [List.mem_map] at hr
              obtain ⟨z, hz, hzeq⟩ := hr
              rw [List.mem_filter] at hz
              have hzn := (mem_neighbors p x0 z).mp hz.1
              rw [← hzeq]
              exact hzn.2.1
          · intro u v hu hv huv hovuv hnotin
            have hnr : (u, v) ∉ arcs.dropLast :=
              fun hmem => hnotin (List.mem_append_left _ hmem)
            by_cases hvx0 : v = x0
            · subst hvx0
              have hunb : u ∈ neighbors p v := by
                rw [mem_neighbors]
                refine ⟨hu, huv, ?_⟩
                obtain ⟨⟨i, j⟩, hij⟩ := Option.isSome_iff_exists.mp hovuv
                rw [Option.isSome_iff_exists]
                exact ⟨(j, i), hs u v i j hij⟩
              by_cases huy0 : u = y0
              · subst huy0
                have hmemarcs : (u, v) ∉ arcs := by
                  intro hmem
                  rw [← hdecomp] at hmem
                  rcases List.mem_append.mp hmem with h1 | h2
                  · exact hnr h1
                  · rw [List.mem_singleton] at h2
                    injection h2 with ha hb
                    exact hx0y0 (ha.symm)
                have hold : arcSupported p d u v := hinv u v hu hv huv hovuv hmemarcs
                intro vy hvy
                rw [revise_fst_ne p d v u u huv] at hvy
                obtain ⟨vx, hvx, hne, hsat⟩ := hold vy hvy
                refine ⟨vx, ?_, hne, hsat⟩
                rw [revise_fst_apply]
                rw [List.mem_filter]
                refine ⟨hvx, ?_⟩
                rw [hasSupport_iff]
                exact ⟨vy, hvy, Ne.symm hne,
                  overlap_satisfied_symm p hs v u vx vy hsat⟩
              · exfalso
                apply hnotin
                refine List.mem_append_right _ ?_
                rw [List.mem_map]
                exact ⟨u, List.mem_filter.mpr ⟨hunb, decide_eq_true huy0⟩, rfl⟩
            · by_cases hux0 : u = x0
              · subst hux0
                by_cases hvy0 : v = y0
                · subst hvy0
                  exact revise_post p d u v huv
                · have hmemarcs : (u, v) ∉ arcs := by
                    intro hmem
                    rw [← hdecomp] at hmem
                    rcases List.mem_append.mp hmem with h1 | h2
                    · exact hnr h1
                    · rw [List.mem_singleton] at h2
                      injection h2 with ha hb
                      exact hvy0 hb
                  have hold := hinv u v hu hv huv hovuv hmemarcs
                  intro vx hvx
                  rw [revise_fst_apply] at hvx
                  have hvx2 := (List.mem_filter.mp hvx).1
                  obtain ⟨vy, hvy, hne, hsat⟩ := hold vx hvx2
                  refine ⟨vy, ?_, hne, hsat⟩
                  rw [revise_fst_ne p d u y0 v hvx0]
                  exact hvy
              · have hmemarcs : (u, v) ∉ arcs := by
                  intro hmem
                  rw [← hdecomp] at hmem
                  rcases List.mem_append.mp hmem with h1 | h2
                  · exact hnr h1
                  · rw [List.mem_singleton] at h2
                    injection h2 with ha hb
                    exact hux0 ha
                have hold := hinv u v hu hv huv hovuv hmemarcs
                intro vx hvx
                rw [revise_fst_ne p d x0 y0 u hux0] at hvx
                obtain ⟨vy, hvy, hne, hsat⟩ := hold vx hvx
                refine ⟨vy, ?_, hne, hsat⟩
                rw [revise_fst_ne p d x0 y0 v hvx0]
                exact hvy
      · rw [if_neg hch] at heq
        have hff : (revise p d x0 y0).2 = false := by
          rwa [Bool.not_eq_true] at hch
        rw [revise_false_eq p d x0 y0 hff] at heq
        refine ih _ _ d1 ?_ ?_ heq
        · intro pr2 hpr2
          exact hwf pr2 (by rw [← hdecomp]; exact List.mem_append_left _ hpr2)
        · intro u v hu hv huv hov hnotin
          by_cases heqp : (u, v) = (x0, y0)
          · injection heqp with h1 h2
            subst h1
            subst h2
            exact revise_false_supported p d u v hff
          · refine hinv u v hu hv huv hov ?_
            intro hmem
            rw [← hdecomp] at hmem
            rcases List.mem_append.mp hmem with h1 | h2
            · exact hnotin h1
            · exact heqp (List.mem_singleton.mp h2)

/-- C5: whenever `ac3` runs with no initial queue (full seeding over all
ordered pairs of distinct slots) and reports success, every value left in
any slot's domain has, for every neighboring slot, a distinct supporting
value satisfying the overlap constraint.  (`OverlapSymm` is the geometric
well-formedness of the puzzle model's overlap relation.) -/
theorem ac3_full_success_arc_consistent (p : Puzzle) (fuel : Nat) (d : Domains)
    (hs : OverlapSymm p)
    (hsucc : (ac3 p fuel d none).map Prod.snd = some true) :
    ∀ x y, x ∈ p.vars → y ∈ p.vars → x ≠ y → (p.overlaps x y).isSome →
      ∀ vx ∈ ac3Dom p fuel d none x, ∃ vy ∈ ac3Dom p fuel d none y,
        vx ≠ vy ∧ overlap_satisfied p x y vx vy = true := by
  cases hac : ac3 p fuel d none with
  | none => rw [hac] at hsucc; cases hsucc
  | some pr =>
    obtain ⟨d1, b⟩ := pr
    rw [hac] at hsucc
    simp only [Option.map_some', Option.some.injEq] at hsucc
    subst hsucc
    have hdom : ac3Dom p fuel d none = d1 := by
      unfold ac3Dom
      rw [hac]
      rfl
    rw [hdom]
    have hgo : ac3Go p fuel d (seedArcs p) = some (d1, true) := hac
    intro x y hx hy hxy hov
    refine ac3Go_inv p hs fuel d (seedArcs p) d1 ?_ ?_ hgo x y hx hy hxy hov
    · intro pr2 hpr2
      obtain ⟨u, v⟩ := pr2
      exact Ne.symm ((mem_seedArcs p u v).mp hpr2).2.2
    · intro u v hu hv huv _ hnotin
      exact absurd ((mem_seedArcs p u v).mpr ⟨hu, hv, Ne.symm huv⟩) hnotin

/-- The overlap relation of `p3` is symmetric. -/
theorem p3_overlapSymm : OverlapSymm p3 := by
  intro x y i j h
  simp only [p3] at h ⊢
  split_ifs at h with h1 h2 h3 h4 h5 h6 <;>
    first
    | (obtain ⟨rfl, rfl⟩ := ‹_ ∧ _›
       rw [Option.some.injEq, Prod.mk.injEq] at h
       obtain ⟨rfl, rfl⟩ := h
       decide)
    | cases h

/-- Witness for C5: the full-seeded run on `p3` after node consistency
succeeds, and the concrete value `da` of slot 0 keeps a distinct support in
slot 1's domain. -/
theorem ac3_full_success_arc_consistent_witness :
    ((ac3 p3 50 (enforce_node_consistency p3 (initDomains p3)) none).map Prod.snd
      = some true) ∧
    (∃ vy ∈ ac3Dom p3 50 (enforce_node_consistency p3 (initDomains p3)) none 1,
      cw "da" ≠ vy ∧ overlap_satisfied p3 0 1 (cw "da") vy = true) :=
  ⟨by decide,
    ac3_full_success_arc_consistent p3 50
      (enforce_node_consistency p3 (initDomains p3)) p3_overlapSymm (by decide)
      0 1 (by decide) (by decide) (by decide) (by decide) (cw "da") (by decide)⟩

/-! ### Termination of AC-3 and graceful failure on unsatisfiable slots (C9) -/

theorem revise_changed_lt (p : Puzzle) (d : Domains) (x y : Var)
    (h : (revise p d x y).2 = true) :
    ((revise p d x y).1 x).length < (d x).length := by
  rw [revise_fst_apply]
  rw [List.length_filter_lt_length_iff_exists]
  unfold revise at h
  dsimp only at h
  rw [List.any_eq_true] at h
  obtain ⟨vx, hvx, hns⟩ := h
  rw [Bool.not_eq_true'] at hns
  exact ⟨vx, hvx, fun hc => by rw [hns] at hc; cases hc⟩

theorem revise_length_le (p : Puzzle) (d : Domains) (x y : Var) (v : Var) :
    ((revise p d x y).1 v).length ≤ (d v).length := by
  by_cases hv : v = x
  · subst hv
    rw [revise_fst_apply]
    exact List.length_filter_le _ _
  · rw [revise_fst_ne p d x y v hv]

theorem totalSize_revise_lt (p : Puzzle) (d : Domains) (x y : Var)
    (hx : x ∈ p.vars) (h : (revise p d x y).2 = true) :
    totalSize p (revise p d x y).1 < totalSize p d := by
  unfold totalSize
  refine List.sum_lt_sum _ _ (fun v _ => revise_length_le p d x y v) ?_
  exact ⟨x, hx, revise_changed_lt p d x y h⟩

theorem pushes_length_le (p : Puzzle) (x y : Var) :
    ((((neighbors p x).filter (fun z => z ≠ y)).map
      (fun z => (z, x))) : List Arc).length ≤ p.vars.length := by
  rw [List.length_map]
  calc ((neighbors p x).filter (fun z => z ≠ y)).length
      ≤ (neighbors p x).length := List.length_filter_le _ _
    _ ≤ p.vars.length := List.length_filter_le _ _

theorem ac3Go_term (p : Puzzle) :
    ∀ (fuel : Nat) (d : Domains) (arcs : List Arc),
      QueueVars p arcs → ac3Fuel p d arcs ≤ fuel →
      (ac3Go p fuel d arcs).isSome := by
  intro fuel
  induction fuel with
  | zero =>
    intro d arcs _ hf
    exfalso
    unfold ac3Fuel at hf
    omega
  | succ fuel ih =>
    intro d arcs hqv hf
    simp only [ac3Go]
    cases hq : arcs.getLast? with
    | none => rfl
    | some pr =>
      obtain ⟨x0, y0⟩ := pr
      dsimp only
      have hdecomp := List.dropLast_append_getLast? (x0, y0) hq
      have hlen : arcs.length = arcs.dropLast.length + 1 := by
        conv_lhs => rw [← hdecomp]
        rw [List.length_append]
        rfl
      by_cases hch : (revise p d x0 y0).2 = true
      · rw [if_pos hch]
        by_cases hemp : (((revise p d x0 y0).1) x0).isEmpty = true
        · rw [if_pos hemp]
          rfl
        · rw [if_neg hemp]
          apply ih
          · intro pr2 hpr2
            rcases List.mem_append.mp hpr2 with hl | hr
            · exact hqv pr2 (by rw [← hdecomp]; exact List.mem_append_left _ hl)
            · rw [List.mem_map] at hr
              obtain ⟨z, hz, hzeq⟩ := hr
              rw [List.mem_filter] at hz
              rw [← hzeq]
              exact ((mem_neighbors p x0 z).mp hz.1).1
          · have hx0v : x0 ∈ p.vars := hqv (x0, y0) (by
              rw [← hdecomp]
              exact List.mem_append_right _ (List.mem_singleton.mpr rfl))
            have hts : totalSize p (revise p d x0 y0).1 < totalSize p d :=
              totalSize_revise_lt p d x0 y0 hx0v hch
            have hpush := pushes_length_le p x0 y0
            have hmul : (p.vars.length + 1) * (totalSize p (revise p d x0 y0).1 + 1)
                ≤ (p.vars.length + 1) * totalSize p d :=
              Nat.mul_le_mul_left _ hts
            rw [Nat.mul_add, Nat.mul_one] at hmul
            unfold ac3Fuel at hf ⊢
            rw [List.length_append]
            omega
      · rw [if_neg hch]
        rw [revise_false_eq p d x0 y0 (by rwa [Bool.not_eq_true] at hch)]
        apply ih
        · intro pr2 hpr2
          exact hqv pr2 (by rw [← hdecomp]; exact List.mem_append_left _ hpr2)
        · unfold ac3Fuel at hf ⊢
          omega

theorem ac3_full_isSome (p : Puzzle) (d : Domains) (fuel : Nat)
    (hf : ac3Fuel p d (seedArcs p) ≤ fuel) : (ac3 p fuel d none).isSome := by
  unfold ac3
  apply ac3Go_term
  · intro pr hpr
    obtain ⟨u, v⟩ := pr
    exact ((mem_seedArcs p u v).mp hpr).1
  · exact hf

theorem enforce_node_consistency_len (p : Puzzle) :
    ∀ (vs : List Var) (d : Domains) (v : Var), v ∈ vs →
      ∀ w ∈ vs.foldl
        (fun d v => Function.update d v ((d v).filter (fun w => w.length == p.length v))) d v,
        w.length = p.length v := by
  intro vs
  induction vs with
  | nil => intro d v hv; cases hv
  | cons u rest ih =>
    intro d v hv w hw
    rw [List.foldl_cons] at hw
    by_cases hvr : v ∈ rest
    · exact ih _ v hvr w hw
    · have hvu : v = u := by
        rcases List.mem_cons.mp hv with h1 | h2
        · exact h1
        · exact absurd h2 hvr
      subst hvu
      have hw2 := enforce_node_consistency_sub p rest _ v w hw
      rw [Function.update_same] at hw2
      have := (List.mem_filter.mp hw2).2
      rwa [beq_iff_eq] at this

/-- A slot whose length no word matches has an empty domain after node
consistency. -/
theorem enforce_node_consistency_empty (p : Puzzle) (v : Var) (hv : v ∈ p.vars)
    (hbad : ∀ w ∈ p.words, w.length ≠ p.length v) :
    enforce_node_consistency p (initDomains p) v = [] := by
  rw [List.eq_nil_iff_forall_not_mem]
  intro w hw
  have h1 := enforce_node_consistency_sub p p.vars (initDomains p) v w hw
  have h2 := enforce_node_consistency_len p p.vars (initDomains p) v hv w hw
  unfold initDomains at h1
  rw [if_pos hv] at h1
  exact hbad w h1 h2

/-- C9: for every puzzle containing a slot whose length no word in the word
list can satisfy, `solve` returns the no-solution signal under both values
of the interleaving flag (with fuel at least the AC-3 termination bound
`ac3Fuel`, which the fuelled model needs; the Python original always
terminates).  No distinct error kind exists: the model is total. -/
theorem solve_length_mismatch_none (p : Puzzle) (flag : Bool) (fuel : Nat)
    (v0 : Var) (hv : v0 ∈ p.vars)
    (hbad : ∀ w ∈ p.words, w.length ≠ p.length v0)
    (hfuel : ac3Fuel p (enforce_node_consistency p (initDomains p)) (seedArcs p)
      ≤ fuel) :
    (solveRun p flag fuel).1 = some none := by
  have hfpos : 1 ≤ fuel := le_trans (by unfold ac3Fuel; omega) hfuel
  obtain ⟨f1, rfl⟩ : ∃ f1, fuel = f1 + 1 := ⟨fuel - 1, by omega⟩
  simp only [solveRun, solve]
  have hterm := ac3_full_isSome p (enforce_node_consistency p (initDomains p))
    (f1 + 1) hfuel
  obtain ⟨⟨d2, b2⟩, hac⟩ := Option.isSome_iff_exists.mp hterm
  have hdom1 : domainsOf (setCur (initSt p)
      (enforce_node_consistency p (domainsOf (initSt p))))
      = enforce_node_consistency p (initDomains p) := rfl
  have hlift : liftAc3 p (f1 + 1)
      (setCur (initSt p) (enforce_node_consistency p (domainsOf (initSt p)))) none
      = some (setCur (setCur (initSt p)
          (enforce_node_consistency p (domainsOf (initSt p)))) d2, b2) := by
    unfold liftAc3
    rw [hdom1, hac]
  rw [hlift]
  dsimp only
  have hd2v0 : d2 v0 = [] := by
    rw [List.eq_nil_iff_forall_not_mem]
    intro w hw
    have h1 := ac3_sub p (f1 + 1) _ none d2 b2 hac v0 w hw
    rw [enforce_node_consistency_empty p v0 hv hbad] at h1
    cases h1
  have hdomfin : domainsOf (setCur (setCur (initSt p)
      (enforce_node_consistency p (domainsOf (initSt p)))) d2) v0 = [] := hd2v0
  cases flag with
  | false =>
    rw [if_neg (by decide : ¬(false = true))]
    exact bt_empty_unassigned f1 p [] _ v0 hv rfl hdomfin
  | true =>
    rw [if_pos rfl]
    exact btAc3_empty_unassigned f1 p [] _ v0 hv rfl hdomfin

/-- Witness for C9: a one-slot puzzle of length 3 whose only word has
length 2; both variants of `solve` return `None`. -/
theorem solve_length_mismatch_none_witness :
    (solveRun pW9 false 5).1 = some none ∧ (solveRun pW9 true 5).1 = some none :=
  ⟨solve_length_mismatch_none pW9 false 5 0 (by decide) (by decide) (by decide),
    solve_length_mismatch_none pW9 true 5 0 (by decide) (by decide) (by decide)⟩

end CrosswordCSP
